import Mathlib

/-!
# Verification of the p2panda spaces test scaffolding and its specified core

This development shallowly embeds the Rust sources of the repository
(`p2panda-net/tests/impls/mod.rs`, `p2panda-spaces/src/test_utils/store.rs`)
and, for the parts of the spaces core whose implementation is not part of the
available sources (authorization state machine, strong-remove resolver,
epoch handling), a model built from the specification's words.

Conventions of the embedding:
* Rust `u64` is `Nat` with an explicit `% 2 ^ 64` where overflow matters.
* `async` and the `Result<_, Infallible>` wrappers are elided: every such
  method is total, so it becomes a plain function.
* `HashMap<K, V>` becomes an association list `List (K × V)` where `insert`
  replaces an existing binding of the same key.
* Cryptographic primitives (`PrivateKey`, `PublicKey`, `Hash`) are external
  collaborators: a public key is its 32-byte representation, deriving the
  public key from a private key is a projection, and the hash function is a
  parameter (theorems that need collision resistance assume injectivity).
-/

/-! ## Association-list maps (embedding of `std::collections::HashMap`) -/

/-- Insert replacing an existing binding, as `HashMap::insert`. -/
def mapInsert {K V : Type} [DecidableEq K] (k : K) (v : V) : List (K × V) → List (K × V)
  | [] => [(k, v)]
  | (k', v') :: rest => if k = k' then (k, v) :: rest else (k', v') :: mapInsert k v rest

/-- Lookup, as `HashMap::get`. -/
def mapLookup {K V : Type} [DecidableEq K] (k : K) : List (K × V) → Option V
  | [] => none
  | (k', v') :: rest => if k = k' then some v' else mapLookup k rest

/-- Key-membership test, as `HashMap::contains_key`. -/
def mapContains {K V : Type} [DecidableEq K] (k : K) : List (K × V) → Bool
  | [] => false
  | (k', _) :: rest => if k = k' then true else mapContains k rest

/-- Key list, as `HashMap::keys`. -/
def mapKeys {K V : Type} (m : List (K × V)) : List K :=
  m.map (fun e => e.1)

/-! ## Cryptographic identities (`p2panda_core::{PublicKey, PrivateKey, Hash}`) -/

/-- A public key is its canonical 32-byte encoding (`PublicKey::as_bytes`). -/
def PublicKey : Type := { l : List Nat // l.length = 32 }

instance : DecidableEq PublicKey := fun a b =>
  decidable_of_iff (a.val = b.val) Subtype.ext_iff.symm

/-- A private key; deriving its public key (`PrivateKey::public_key`) is an
external primitive modelled as a projection. -/
structure PrivateKey where
  pub : PublicKey
deriving DecidableEq

def PrivateKey.public_key (sk : PrivateKey) : PublicKey := sk.pub

/-! ## `TestMessage` and its `AuthoredMessage` implementation -/

/-- Embedding of `TestMessage<ID>`: the `spaces_args : SpacesArgs<ID, TestConditions>`
payload is kept abstract as a type parameter. `seq_num` is a `u64`. -/
structure TestMessage (Args : Type) where
  seq_num : Nat
  public_key : PublicKey
  spaces_args : Args
deriving DecidableEq

/-- Big-endian byte encoding of a `u64` (`u64::to_be_bytes`). For `n < 2 ^ 64`
these are exactly the eight base-256 digits of `n`, most significant first. -/
def beBytes8 (n : Nat) : List Nat :=
  [n / 2 ^ 56 % 256, n / 2 ^ 48 % 256, n / 2 ^ 40 % 256, n / 2 ^ 32 % 256,
   n / 2 ^ 24 % 256, n / 2 ^ 16 % 256, n / 2 ^ 8 % 256, n % 256]

/-- The buffer hashed by `TestMessage::id`: the author's public-key bytes
followed by the big-endian sequence-number bytes. -/
def idBytes {Args : Type} (m : TestMessage Args) : List Nat :=
  m.public_key.val ++ beBytes8 m.seq_num

/-- `AuthoredMessage::id for TestMessage`: `Hash::new` over `idBytes`,
with the hash an external primitive passed as a parameter. -/
def msgId {Args : Type} (hash : List Nat → Nat) (m : TestMessage Args) : Nat :=
  hash (idBytes m)

/-- `AuthoredMessage::author for TestMessage`: the actor id is the public key. -/
def msgAuthor {Args : Type} (m : TestMessage Args) : PublicKey :=
  m.public_key

/-! ## `TestForge` -/

/-- Embedding of `TestForge<ID>` (the `PhantomData` field is dropped). -/
structure TestForge where
  next_seq_num : Nat
  private_key : PrivateKey
deriving DecidableEq

/-- `TestForge::new`. -/
def TestForge.new (sk : PrivateKey) : TestForge :=
  { next_seq_num := 0, private_key := sk }

/-- `TestForge::forge`: emit a message carrying the current `next_seq_num` and
the forge's long-term public key, then increment the counter (`u64` wrap-around
made explicit). -/
def TestForge.forge {Args : Type} (f : TestForge) (args : Args) :
    TestMessage Args × TestForge :=
  ({ seq_num := f.next_seq_num, public_key := f.private_key.public_key,
     spaces_args := args },
   { f with next_seq_num := (f.next_seq_num + 1) % 2 ^ 64 })

/-- `TestForge::forge_ephemeral`: sign with the supplied one-time key, sequence
number fixed to 0; the forge itself is returned unchanged. -/
def TestForge.forge_ephemeral {Args : Type} (f : TestForge) (sk : PrivateKey)
    (args : Args) : TestMessage Args × TestForge :=
  ({ seq_num := 0, public_key := sk.public_key, spaces_args := args }, f)

/-- Forge a whole list of payloads in order, threading the forge state. -/
def forgeAll {Args : Type} (f : TestForge) : List Args → List (TestMessage Args) × TestForge
  | [] => ([], f)
  | a :: rest =>
    let (m, f') := f.forge a
    let (ms, f'') := forgeAll f' rest
    (m :: ms, f'')

/-! ## `MemoryStore` (`p2panda-spaces/src/test_utils/store.rs`) -/

/-- Embedding of `MemoryStoreInner<I, M, C>`: the `AuthGroupState<C>` and
`SpaceState<I, M, C>` values held by the store are opaque to the store itself,
so they are type parameters `A` and `S`; operation ids are `Nat`. The
`Arc<RwLock<..>>` wrapper is elided (state is threaded explicitly). -/
structure MemoryStore (I A S M : Type) where
  auth : A
  spaces : List (I × S)
  messages : List (Nat × M)

/-- `SpaceStore::space for MemoryStore`. -/
def MemoryStore.space {I A S M : Type} [DecidableEq I]
    (st : MemoryStore I A S M) (id : I) : Option S :=
  mapLookup id st.spaces

/-- `SpaceStore::has_space for MemoryStore`. -/
def MemoryStore.has_space {I A S M : Type} [DecidableEq I]
    (st : MemoryStore I A S M) (id : I) : Bool :=
  mapContains id st.spaces

/-- `SpaceStore::spaces_ids for MemoryStore`. -/
def MemoryStore.spaces_ids {I A S M : Type}
    (st : MemoryStore I A S M) : List I :=
  mapKeys st.spaces

/-- `SpaceStore::set_space for MemoryStore`. -/
def MemoryStore.set_space {I A S M : Type} [DecidableEq I]
    (st : MemoryStore I A S M) (id : I) (y : S) : MemoryStore I A S M :=
  { st with spaces := mapInsert id y st.spaces }

/-- `AuthStore::auth for MemoryStore`. -/
def MemoryStore.authView {I A S M : Type} (st : MemoryStore I A S M) : A :=
  st.auth

/-- `AuthStore::set_auth for MemoryStore`. -/
def MemoryStore.set_auth {I A S M : Type}
    (st : MemoryStore I A S M) (y : A) : MemoryStore I A S M :=
  { st with auth := y }

/-- `MessageStore::message for MemoryStore`. -/
def MemoryStore.message {I A S M : Type}
    (st : MemoryStore I A S M) (id : Nat) : Option M :=
  mapLookup id st.messages

/-- `MessageStore::set_message for MemoryStore`. -/
def MemoryStore.set_message {I A S M : Type}
    (st : MemoryStore I A S M) (id : Nat) (m : M) : MemoryStore I A S M :=
  { st with messages := mapInsert id m st.messages }

/-! ## Authorization state machine (modelled from the spec)

The implementation of `AuthGroupState`, `StrongRemoveResolver`, `SpaceState`
and `Manager` from `p2panda-spaces` is not among the available sources (only
their test-side callers are), so this section is a model built from the
specification: operations carry author, per-author sequence number, a
dependency set of operation ids and an action payload; the state machine keeps
the set of applied operations with a derived view; concurrent conflicts are
resolved by the strong-removal policy with the `(sequence number, ActorId)
highest wins` tie-break; the gate requires Admin in the pre-operation (causal
past) view; accepted membership-affecting operations bump the space's epoch. -/

/-- Modelled from the spec: the ordered access-level enumeration
`Read < Write < Admin` (§3, `p2panda_auth::Access` is not in the sources). -/
inductive Access
  | read
  | write
  | admin
deriving DecidableEq

def Access.rank : Access → Nat
  | .read => 0
  | .write => 1
  | .admin => 2

/-- Modelled from the spec: the closed action-payload variant (§3). -/
inductive AuthAction
  | createSpace (initial : List (Nat × Access))
  | addMember (actor : Nat) (lvl : Access)
  | removeMember (actor : Nat)
  | changeAccess (actor : Nat) (lvl : Access)
  | sendContent
deriving DecidableEq

/-- Modelled from the spec: an operation (§3) — author `ActorId`, per-author
sequence number, target space, causal dependency set of `OperationId`s, and an
action payload; ids are abstract numbers (the hash layer is `msgId` above). -/
structure Op where
  id : Nat
  author : Nat
  seq : Nat
  space : Nat
  deps : List Nat
  action : AuthAction
deriving DecidableEq

/-- The causal past reached through a dependency list, given the already
computed past map of older operations: each dependency id together with its
recorded past. -/
def resolvePast (m : List (Nat × List Nat)) (deps : List Nat) : List Nat :=
  deps.foldr (fun d acc => d :: ((mapLookup d m).getD []) ++ acc) []

/-- The arena-style causal-past index (§9): the applied-operations list is
newest-first, so each operation's dependencies resolve among its tail. -/
def pastMap : List Op → List (Nat × List Nat)
  | [] => []
  | op :: rest => (op.id, resolvePast (pastMap rest) op.deps) :: pastMap rest

/-- The causal past of an operation id as a function of the index. -/
def pastFn (m : List (Nat × List Nat)) (i : Nat) : List Nat :=
  (mapLookup i m).getD []

/-- Modelled from the spec: which operations grant `x` some access to space
`s` — `CreateSpace` initial members (the creator implicitly Admin, §3),
`AddMember` and `ChangeAccess`. -/
def grantFor (s x : Nat) (o : Op) : Option Access :=
  if o.space = s then
    match o.action with
    | .createSpace initial =>
      if o.author = x then some .admin else mapLookup x initial
    | .addMember a lvl => if a = x then some lvl else none
    | .changeAccess a lvl => if a = x then some lvl else none
    | _ => none
  else none

/-- Modelled from the spec: `RemoveMember` operations for `(s, x)`. -/
def removesFor (s x : Nat) (o : Op) : Bool :=
  match o.action with
  | .removeMember a => o.space == s && a == x
  | _ => false

/-- Modelled from the spec (§4.3 strong removal): a grant is effective when
every removal of the same `(space, actor)` pair is strictly in the grant's
causal past — access is regained only by a grant causally after the removal. -/
def effGrant (past : Nat → List Nat) (univ : List Op) (s x : Nat) (g : Op) : Bool :=
  (grantFor s x g).isSome &&
    univ.all (fun r => !(removesFor s x r) || (past g.id).contains r.id)

/-- An effective grant that is causally maximal among the effective grants:
no other effective grant supersedes it. -/
def maxEffGrant (past : Nat → List Nat) (univ : List Op) (s x : Nat) (g : Op) : Bool :=
  effGrant past univ s x g &&
    univ.all (fun g' => !(effGrant past univ s x g') || !((past g'.id).contains g.id))

/-- Modelled from the spec (§4.3): ties among concurrent candidate grants are
broken by `(sequence number, ActorId)` of the authoring operation, highest
wins; the access level is carried along (and, for totality, acts as a final
tie-break, unreachable when `(author, seq)` determines the operation). -/
def keyLe (p q : Nat × Nat × Access) : Bool :=
  decide (p.1 < q.1) ||
    (decide (p.1 = q.1) &&
      (decide (p.2.1 < q.2.1) ||
        (decide (p.2.1 = q.2.1) && decide (p.2.2.rank ≤ q.2.2.rank))))

def keyMax (p q : Nat × Nat × Access) : Nat × Nat × Access :=
  if keyLe p q then q else p

def keyInsOpt (p : Nat × Nat × Access) : Option (Nat × Nat × Access) → Option (Nat × Nat × Access)
  | none => some p
  | some q => some (keyMax p q)

/-- Fold the winning `(seq, author, level)` key over the causally-maximal
effective grants of a candidate list. -/
def viewFold (past : Nat → List Nat) (univ : List Op) (s x : Nat) :
    List Op → Option (Nat × Nat × Access)
  | [] => none
  | g :: rest =>
    if maxEffGrant past univ s x g then
      keyInsOpt (g.seq, g.author, (grantFor s x g).getD .read) (viewFold past univ s x rest)
    else viewFold past univ s x rest

/-- Modelled from the spec: the merged membership/access view of `(s, x)`
derived from a set of applied operations — `some (seq, author, level)` of the
winning grant when `x` is a member of `s`, `none` otherwise. -/
def memberView (past : Nat → List Nat) (ops : List Op) (s x : Nat) :
    Option (Nat × Nat × Access) :=
  viewFold past ops s x ops

/-- Modelled from the spec: `AuthGroupState` — the set of applied
authorization operations (newest first) plus the per-space key epochs (§3). -/
structure AuthState where
  ops : List Op
  epochs : List (Nat × Nat)
deriving DecidableEq

def appliedIds (y : AuthState) : List Nat :=
  y.ops.map (fun o => o.id)

def epochOf (y : AuthState) (s : Nat) : Nat :=
  (mapLookup s y.epochs).getD 0

def bumpEpoch (s : Nat) (es : List (Nat × Nat)) : List (Nat × Nat) :=
  mapInsert s ((mapLookup s es).getD 0 + 1) es

/-- Modelled from the spec (§4.4): operations that change membership or
access levels of a space (everything except content messages). -/
def membershipAffecting : AuthAction → Bool
  | .sendContent => false
  | _ => true

/-- Modelled from the spec (§4.3): the actions guarded by the Admin gate. -/
def gatedAction : AuthAction → Bool
  | .addMember _ _ => true
  | .removeMember _ => true
  | .changeAccess _ _ => true
  | _ => false

/-- Modelled from the spec (§4.3): the author's access in the pre-operation
view — the view derived from the operation's causal past. -/
def authorLevel (y : AuthState) (op : Op) : Option (Nat × Nat × Access) :=
  let pm := pastMap y.ops
  let pastIds := resolvePast pm op.deps
  memberView (pastFn pm) (y.ops.filter (fun o => pastIds.contains o.id)) op.space op.author

/-- Modelled from the spec (§4.3): gated actions require the author to hold
Admin in the pre-operation view. -/
def gateOK (y : AuthState) (op : Op) : Bool :=
  !gatedAction op.action ||
    (match authorLevel y op with
     | some k => decide (k.2.2 = Access.admin)
     | none => false)

inductive SpaceErr
  | permissionDenied
deriving DecidableEq

/-- Modelled from the spec: `apply` (§4.3) — re-delivery of an applied
`OperationId` is a no-op; gated operations failing the Admin check are
rejected unchanged with a permission error; otherwise the operation joins the
applied set and, when membership-affecting, bumps the space's epoch (§4.4). -/
def applyOp (y : AuthState) (op : Op) : AuthState × Option SpaceErr :=
  if op.id ∈ appliedIds y then (y, none)
  else if gateOK y op then
    ({ ops := op :: y.ops,
       epochs :=
         if membershipAffecting op.action then bumpEpoch op.space y.epochs
         else y.epochs }, none)
  else (y, some .permissionDenied)

/-- The derived membership/access view of a state. -/
def spaceView (y : AuthState) (s x : Nat) : Option (Nat × Nat × Access) :=
  memberView (pastFn (pastMap y.ops)) y.ops s x

/-- Modelled from the spec: a replica — the state machine plus the causal
store retaining every received operation by id (§2, §4.3). -/
structure Replica where
  st : AuthState
  store : List (Nat × Op)
deriving DecidableEq

/-- Modelled from the spec (§4.5 `receive`): persist the operation in the
causal store, then apply it to the state machine. -/
def receiveOp (r : Replica) (op : Op) : Replica × Option SpaceErr :=
  let p := applyOp r.st op
  ({ st := p.1, store := mapInsert op.id op r.store }, p.2)

/-- Apply a list of operations in order, discarding per-operation errors. -/
def applyAll (y : AuthState) : List Op → AuthState
  | [] => y
  | op :: rest => applyAll (applyOp y op).1 rest

/-! ## Association-list lemmas -/

theorem mapLookup_insert_self {K V : Type} [DecidableEq K] (k : K) (v : V)
    (m : List (K × V)) : mapLookup k (mapInsert k v m) = some v := by
  induction m with
  | nil => simp [mapInsert, mapLookup]
  | cons e rest ih =>
    obtain ⟨k', v'⟩ := e
    by_cases h : k = k' <;> simp [mapInsert, mapLookup, h, ih]

theorem mapLookup_insert_other {K V : Type} [DecidableEq K] (k k' : K) (v : V)
    (m : List (K × V)) (h : k' ≠ k) :
    mapLookup k' (mapInsert k v m) = mapLookup k' m := by
  induction m with
  | nil => simp [mapInsert, mapLookup, h]
  | cons e rest ih =>
    obtain ⟨k'', v''⟩ := e
    by_cases h2 : k = k''
    · subst h2
      simp [mapInsert, mapLookup, h]
    · by_cases h3 : k' = k'' <;> simp [mapInsert, mapLookup, h2, h3, ih]

theorem mapContains_eq_isSome {K V : Type} [DecidableEq K] (k : K)
    (m : List (K × V)) : mapContains k m = (mapLookup k m).isSome := by
  induction m with
  | nil => simp [mapContains, mapLookup]
  | cons e rest ih =>
    obtain ⟨k', v'⟩ := e
    by_cases h : k = k' <;> simp [mapContains, mapLookup, h, ih]

theorem mem_mapKeys_insert {K V : Type} [DecidableEq K] (k : K) (v : V)
    (m : List (K × V)) : k ∈ mapKeys (mapInsert k v m) := by
  induction m with
  | nil => simp [mapInsert, mapKeys]
  | cons e rest ih =>
    obtain ⟨k', v'⟩ := e
    by_cases h : k = k' <;> simp [mapInsert, mapKeys, h]
    · simpa [mapKeys] using ih

/-- C9: after `set_space id y`, `space id` returns `some y`, `has_space id`
returns `true` and `spaces_ids` contains `id`; on any store, `has_space`
returns `true` exactly when `space` returns `some`. -/
theorem memoryStore_space_roundtrip {I A S M : Type} [DecidableEq I]
    (st : MemoryStore I A S M) (id : I) (y : S) :
    (st.set_space id y).space id = some y ∧
    (st.set_space id y).has_space id = true ∧
    id ∈ (st.set_space id y).spaces_ids ∧
    ∀ (st' : MemoryStore I A S M) (id' : I),
      st'.has_space id' = true ↔ (st'.space id').isSome = true := by
  refine ⟨mapLookup_insert_self id y st.spaces, ?_, mem_mapKeys_insert id y st.spaces, ?_⟩
  · simp [MemoryStore.has_space, MemoryStore.set_space, mapContains_eq_isSome,
      mapLookup_insert_self]
  · intro st' id'
    simp [MemoryStore.has_space, MemoryStore.space, mapContains_eq_isSome]

/-- C10: `set_space id1` leaves the state for any other `id2`, the auth state
and the message map unchanged; `set_auth` changes only the auth field;
`set_message mid` changes only the message entry for `mid`. -/
theorem memoryStore_frame {I A S M : Type} [DecidableEq I]
    (st : MemoryStore I A S M) (id1 id2 : I) (y : S) (a : A)
    (mid mid' : Nat) (msg : M) (hid : id1 ≠ id2) (hmid : mid ≠ mid') :
    (st.set_space id1 y).space id2 = st.space id2 ∧
    (st.set_space id1 y).auth = st.auth ∧
    (st.set_space id1 y).messages = st.messages ∧
    (st.set_auth a).auth = a ∧
    (st.set_auth a).spaces = st.spaces ∧
    (st.set_auth a).messages = st.messages ∧
    (st.set_message mid msg).message mid = some msg ∧
    (st.set_message mid msg).message mid' = st.message mid' ∧
    (st.set_message mid msg).spaces = st.spaces ∧
    (st.set_message mid msg).auth = st.auth := by
  refine ⟨mapLookup_insert_other id1 id2 y st.spaces (fun h => hid h.symm),
    rfl, rfl, rfl, rfl, rfl, mapLookup_insert_self mid msg st.messages,
    mapLookup_insert_other mid mid' msg st.messages (fun h => hmid h.symm), rfl, rfl⟩

theorem memoryStore_frame_witness :
    ((1 : Nat) ≠ 2) ∧ ((5 : Nat) ≠ 6) ∧
    (let st : MemoryStore Nat Nat Nat Nat :=
      { auth := 0, spaces := [(2, 7)], messages := [(6, 8)] }
     (st.set_space 1 9).space 2 = st.space 2 ∧
     (st.set_space 1 9).auth = st.auth ∧
     (st.set_space 1 9).messages = st.messages ∧
     (st.set_auth 3).auth = 3 ∧
     (st.set_auth 3).spaces = st.spaces ∧
     (st.set_auth 3).messages = st.messages ∧
     (st.set_message 5 4).message 5 = some 4 ∧
     (st.set_message 5 4).message 6 = st.message 6 ∧
     (st.set_message 5 4).spaces = st.spaces ∧
     (st.set_message 5 4).auth = st.auth) :=
  ⟨by decide, by decide,
    memoryStore_frame { auth := 0, spaces := [(2, 7)], messages := [(6, 8)] }
      1 2 9 3 5 6 4 (by decide) (by decide)⟩

/-! ## Forge and message-id theorems -/

theorem forgeAll_seq_nums {Args : Type} (args : List Args) :
    ∀ f : TestForge, f.next_seq_num < 2 ^ 64 →
      ((forgeAll f args).1.map (fun m => m.seq_num)) =
        (List.range args.length).map (fun i => (f.next_seq_num + i) % 2 ^ 64) ∧
      (forgeAll f args).2.private_key = f.private_key := by
  induction args with
  | nil => intro f _; simp [forgeAll]
  | cons a rest ih =>
    intro f hf
    obtain ⟨ih1, ih2⟩ := ih { f with next_seq_num := (f.next_seq_num + 1) % 2 ^ 64 }
      (Nat.mod_lt _ (by norm_num))
    refine ⟨?_, ih2⟩
    simp only [forgeAll, TestForge.forge, List.map_cons, List.length_cons,
      List.range_succ_eq_map, List.map_map]
    rw [ih1]
    refine congrArg₂ _ ?_ ?_
    · omega
    · refine List.map_congr_left ?_
      intro i _
      show ((f.next_seq_num + 1) % 2 ^ 64 + i) % 2 ^ 64 = (f.next_seq_num + (i + 1)) % 2 ^ 64
      have harr : f.next_seq_num + 1 + i = f.next_seq_num + (i + 1) := by omega
      rw [Nat.mod_add_mod, harr]

/-- C6: on a fresh forge, the i-th forged operation carries sequence number i
(so per-author sequence numbers are `0, 1, 2, ...`: strictly increasing, no
gaps, no duplicates), and forging leaves the long-term identity unchanged. -/
theorem forge_assigns_consecutive_seq_nums {Args : Type} (args : List Args)
    (f : TestForge) (h0 : f.next_seq_num = 0) (hlen : args.length ≤ 2 ^ 64) :
    ((forgeAll f args).1.map (fun m => m.seq_num)) = List.range args.length ∧
    (forgeAll f args).2.private_key = f.private_key := by
  obtain ⟨h1, h2⟩ := forgeAll_seq_nums args f (h0 ▸ by norm_num)
  refine ⟨?_, h2⟩
  rw [h1, h0]
  have hpt : ∀ i ∈ List.range args.length, (0 + i) % 2 ^ 64 = id i := by
    intro i hi
    rw [List.mem_range] at hi
    rw [Nat.zero_add]
    exact Nat.mod_eq_of_lt (Nat.lt_of_lt_of_le hi hlen)
  rw [List.map_congr_left hpt, List.map_id]

def pk0 : PublicKey := ⟨List.replicate 32 0, rfl⟩

def sk0 : PrivateKey := ⟨pk0⟩

theorem forge_assigns_consecutive_seq_nums_witness :
    (TestForge.new sk0).next_seq_num = 0 ∧
    ([0, 1, 2] : List Nat).length ≤ 2 ^ 64 ∧
    (((forgeAll (TestForge.new sk0) ([0, 1, 2] : List Nat)).1.map
        (fun m => m.seq_num)) = List.range ([0, 1, 2] : List Nat).length ∧
      (forgeAll (TestForge.new sk0) ([0, 1, 2] : List Nat)).2.private_key =
        (TestForge.new sk0).private_key) :=
  ⟨rfl, by norm_num,
    forge_assigns_consecutive_seq_nums ([0, 1, 2] : List Nat) (TestForge.new sk0)
      rfl (by norm_num)⟩

/-- C7: `forge_ephemeral` yields sequence number 0 under the one-time key's
public key and leaves the forge (in particular its sequence counter)
unchanged. -/
theorem forge_ephemeral_spec {Args : Type} (f : TestForge) (sk : PrivateKey)
    (args : Args) :
    (f.forge_ephemeral sk args).1.seq_num = 0 ∧
    (f.forge_ephemeral sk args).1.public_key = sk.public_key ∧
    (f.forge_ephemeral sk args).2 = f :=
  ⟨rfl, rfl, rfl⟩

/-- C8: the operation id is a pure function of exactly (author public key,
sequence number): for an injective (collision-free) hash, two messages have
equal ids precisely when they agree on author and sequence number. -/
theorem msgId_eq_iff {Args : Type} (hash : List Nat → Nat)
    (hinj : Function.Injective hash) (m1 m2 : TestMessage Args)
    (h1 : m1.seq_num < 2 ^ 64) (h2 : m2.seq_num < 2 ^ 64) :
    msgId hash m1 = msgId hash m2 ↔
      (m1.public_key = m2.public_key ∧ m1.seq_num = m2.seq_num) := by
  constructor
  · intro h
    have h' : hash (idBytes m1) = hash (idBytes m2) := h
    have hb : idBytes m1 = idBytes m2 := hinj h'
    unfold idBytes at hb
    have hlen : m1.public_key.val.length = m2.public_key.val.length := by
      rw [m1.public_key.property, m2.public_key.property]
    obtain ⟨hpk, hbytes⟩ := List.append_inj hb hlen
    refine ⟨Subtype.ext hpk, ?_⟩
    simp only [beBytes8, List.cons.injEq, and_true] at hbytes
    obtain ⟨e1, e2, e3, e4, e5, e6, e7, e8⟩ := hbytes
    norm_num at e1 e2 e3 e4 e5 e6 e7 h1 h2
    omega
  · rintro ⟨hpk, hs⟩
    unfold msgId idBytes
    rw [hpk, hs]

def msgW1 : TestMessage Nat := { seq_num := 1, public_key := pk0, spaces_args := 0 }

def msgW2 : TestMessage Nat := { seq_num := 2, public_key := pk0, spaces_args := 5 }

theorem msgId_eq_iff_witness :
    msgW1.seq_num < 2 ^ 64 ∧ msgW2.seq_num < 2 ^ 64 ∧
    (msgId (Encodable.encode : List Nat → Nat) msgW1 =
        msgId (Encodable.encode : List Nat → Nat) msgW2 ↔
      (msgW1.public_key = msgW2.public_key ∧ msgW1.seq_num = msgW2.seq_num)) :=
  ⟨by decide, by decide,
    msgId_eq_iff (Encodable.encode : List Nat → Nat) Encodable.encode_injective
      msgW1 msgW2 (by decide) (by decide)⟩


/-! ## State-machine theorems: idempotence, epochs, permission gate -/

/-- C3: re-delivery of an already-applied `OperationId` is a no-op — applying
an operation twice leaves a state (hence a view) identical to applying it
once. -/
theorem applyOp_idempotent (y : AuthState) (op : Op) :
    (applyOp (applyOp y op).1 op).1 = (applyOp y op).1 := by
  by_cases h1 : op.id ∈ appliedIds y
  · simp [applyOp, h1]
  · by_cases h2 : (gateOK y op : Bool)
    · have hstep : applyOp y op =
        ({ ops := op :: y.ops,
           epochs :=
             if membershipAffecting op.action = true then bumpEpoch op.space y.epochs
             else y.epochs }, none) := by
        simp [applyOp, h1, h2]
      rw [hstep]
      have hmem : op.id ∈ appliedIds
          ({ ops := op :: y.ops,
             epochs :=
               if membershipAffecting op.action = true then bumpEpoch op.space y.epochs
               else y.epochs } : AuthState) := by
        simp [appliedIds]
      simp [applyOp, hmem]
    · simp [applyOp, h1, h2]

theorem epochOf_bump_self (s : Nat) (es : List (Nat × Nat)) :
    (mapLookup s (bumpEpoch s es)).getD 0 = (mapLookup s es).getD 0 + 1 := by
  unfold bumpEpoch
  rw [mapLookup_insert_self]
  rfl

theorem epochOf_bump_other (s s' : Nat) (es : List (Nat × Nat)) (h : s' ≠ s) :
    mapLookup s' (bumpEpoch s es) = mapLookup s' es := by
  unfold bumpEpoch
  exact mapLookup_insert_other s s' _ es h

/-- C4: a newly accepted membership/access-affecting operation bumps its
space's epoch by exactly 1; an application step never decreases any epoch, and
each step changes an epoch either not at all or by exactly plus 1 (so a
space's epoch values are never reused along a run). -/
theorem applyOp_epoch (y : AuthState) (op : Op) (s : Nat) :
    ((applyOp y op).2 = none → op.id ∉ appliedIds y →
      membershipAffecting op.action = true → op.space = s →
      epochOf (applyOp y op).1 s = epochOf y s + 1) ∧
    epochOf y s ≤ epochOf (applyOp y op).1 s ∧
    (epochOf (applyOp y op).1 s = epochOf y s ∨
      epochOf (applyOp y op).1 s = epochOf y s + 1) := by
  by_cases h1 : op.id ∈ appliedIds y
  · simp [applyOp, h1]
  · by_cases h2 : (gateOK y op : Bool)
    · by_cases h3 : (membershipAffecting op.action : Bool)
      · by_cases h4 : op.space = s
        · subst h4
          simp [applyOp, h1, h2, h3, epochOf, epochOf_bump_self]
        · have hlk := epochOf_bump_other op.space s y.epochs (fun he => h4 he.symm)
          simp [applyOp, h1, h2, h3, epochOf, hlk, fun he : op.space = s => h4 he]
      · simp [applyOp, h1, h2, h3, epochOf]
    · simp [applyOp, h1, h2]

def yEmpty : AuthState := { ops := [], epochs := [] }

def opWCreate : Op :=
  { id := 1, author := 1, seq := 0, space := 0, deps := [],
    action := .createSpace [(2, .write)] }

theorem applyOp_epoch_witness :
    epochOf (applyOp yEmpty opWCreate).1 0 = epochOf yEmpty 0 + 1 :=
  (applyOp_epoch yEmpty opWCreate 0).1 (by decide) (by decide) (by decide) rfl

/-- Modelled from the spec: the author's pre-operation access is below Admin
(either a non-Admin level or no membership at all). -/
def belowAdmin (y : AuthState) (op : Op) : Bool :=
  match authorLevel y op with
  | some k => decide (k.2.2 ≠ Access.admin)
  | none => true

/-- C5: a gated operation (AddMember/RemoveMember/ChangeAccess) delivered for
the first time whose author is below Admin in the pre-operation view is
rejected with a permission error, the state-machine state (hence the
membership view) is unchanged, and the operation is still retained in the
causal store, retrievable by its id. -/
theorem receive_permission_denied (r : Replica) (op : Op)
    (hgate : gatedAction op.action = true)
    (hnew : op.id ∉ appliedIds r.st)
    (hbelow : belowAdmin r.st op = true) :
    (receiveOp r op).2 = some SpaceErr.permissionDenied ∧
    (receiveOp r op).1.st = r.st ∧
    mapLookup op.id (receiveOp r op).1.store = some op ∧
    ∀ s x, spaceView (receiveOp r op).1.st s x = spaceView r.st s x := by
  have hg : gateOK r.st op = false := by
    unfold gateOK
    rw [hgate]
    unfold belowAdmin at hbelow
    cases hlvl : authorLevel r.st op with
    | none => simp
    | some k =>
      rw [hlvl] at hbelow
      simp only [decide_eq_true_eq] at hbelow
      simp [hbelow]
  refine ⟨?_, ?_, ?_, ?_⟩ <;>
    simp [receiveOp, applyOp, hnew, hg, mapLookup_insert_self]

def opBobRemove : Op :=
  { id := 2, author := 2, seq := 0, space := 0, deps := [1],
    action := .removeMember 1 }

def replicaW : Replica :=
  { st := { ops := [opWCreate], epochs := [(0, 1)] }, store := [(1, opWCreate)] }

theorem receive_permission_denied_witness :
    gatedAction opBobRemove.action = true ∧
    opBobRemove.id ∉ appliedIds replicaW.st ∧
    belowAdmin replicaW.st opBobRemove = true ∧
    ((receiveOp replicaW opBobRemove).2 = some SpaceErr.permissionDenied ∧
      (receiveOp replicaW opBobRemove).1.st = replicaW.st ∧
      mapLookup opBobRemove.id (receiveOp replicaW opBobRemove).1.store =
        some opBobRemove ∧
      spaceView (receiveOp replicaW opBobRemove).1.st 0 2 =
        spaceView replicaW.st 0 2) :=
  ⟨by decide, by decide, by decide, by
    obtain ⟨a, b, c, d⟩ :=
      receive_permission_denied replicaW opBobRemove (by decide) (by decide)
        (by decide)
    exact ⟨a, b, c, d 0 2⟩⟩

/-! ## Strong removal -/

theorem viewFold_of_all_false (past : Nat → List Nat) (univ : List Op)
    (s x : Nat) :
    ∀ L : List Op, (∀ g ∈ L, maxEffGrant past univ s x g = false) →
      viewFold past univ s x L = none := by
  intro L
  induction L with
  | nil => intro _; rfl
  | cons g rest ih =>
    intro h
    have hg := h g (List.mem_cons_self g rest)
    simp only [viewFold, hg, Bool.false_eq_true, if_false]
    exact ih (fun g' hg' => h g' (List.mem_cons_of_mem _ hg'))

/-- C1: strong removal — if the applied set contains a `RemoveMember` for
`(s, x)` and no grant for `(s, x)` in the applied set has that removal in its
causal past, then `x` is absent from the merged member view of `s`. The view
is a function of the applied set only, so this holds in whatever order the
operations were applied. -/
theorem strong_removal (y : AuthState) (r : Op) (s x : Nat)
    (hr : r ∈ y.ops) (hrem : removesFor s x r = true)
    (hnotafter : ∀ g ∈ y.ops, (grantFor s x g).isSome = true →
      ((pastFn (pastMap y.ops) g.id).contains r.id) = false) :
    spaceView y s x = none := by
  have hall : ∀ g ∈ y.ops, maxEffGrant (pastFn (pastMap y.ops)) y.ops s x g = false := by
    intro g hgmem
    cases hsome : (grantFor s x g).isSome with
    | false => simp [maxEffGrant, effGrant, hsome]
    | true =>
      have hc := hnotafter g hgmem hsome
      have heff : effGrant (pastFn (pastMap y.ops)) y.ops s x g = false := by
        unfold effGrant
        rw [hsome, Bool.true_and, List.all_eq_false]
        refine ⟨r, hr, ?_⟩
        simp only [hrem, Bool.not_true, Bool.false_or]
        simpa using hc
      simp [maxEffGrant, heff]
  exact viewFold_of_all_false _ _ _ _ y.ops hall

def sc1Create : Op :=
  { id := 1, author := 1, seq := 0, space := 0, deps := [], action := .createSpace [] }

def sc1AddBob : Op :=
  { id := 2, author := 1, seq := 1, space := 0, deps := [1], action := .addMember 2 .write }

def sc1AddCarol : Op :=
  { id := 3, author := 1, seq := 2, space := 0, deps := [2], action := .addMember 3 .write }

def sc1AddDave : Op :=
  { id := 4, author := 1, seq := 3, space := 0, deps := [3], action := .addMember 4 .admin }

def sc1RemBob : Op :=
  { id := 5, author := 1, seq := 4, space := 0, deps := [4], action := .removeMember 2 }

def sc1ChgBob : Op :=
  { id := 6, author := 4, seq := 0, space := 0, deps := [4], action := .changeAccess 2 .admin }

/-- The replica state after applying the two concurrent branches (the
concurrent `ChangeAccess` delivered before the `RemoveMember`). -/
def ySc1 : AuthState :=
  applyAll yEmpty [sc1Create, sc1AddBob, sc1AddCarol, sc1AddDave, sc1ChgBob, sc1RemBob]

theorem strong_removal_witness :
    sc1RemBob ∈ ySc1.ops ∧ removesFor 0 2 sc1RemBob = true ∧
    spaceView ySc1 0 2 = none :=
  ⟨by decide, by decide,
    strong_removal ySc1 sc1RemBob 0 2 (by decide) (by decide) (by decide)⟩

/-! ## Commutativity of concurrent application

The view is a function of the applied set; the lemmas below show it is
unchanged when the two most recently applied (concurrent, dependency-closed)
operations are swapped, and that the Admin gate of an operation is unaffected
by the concurrent application of another fresh operation. -/

theorem Access.rank_inj (a b : Access) (h : a.rank = b.rank) : a = b := by
  cases a <;> cases b <;> first | rfl | exact absurd h (by decide)

theorem keyLe_iff (p q : Nat × Nat × Access) :
    keyLe p q = true ↔
      (p.1 < q.1 ∨ (p.1 = q.1 ∧ (p.2.1 < q.2.1 ∨
        (p.2.1 = q.2.1 ∧ p.2.2.rank ≤ q.2.2.rank)))) := by
  simp [keyLe]

theorem keyLe_total (p q : Nat × Nat × Access) :
    keyLe p q = true ∨ keyLe q p = true := by
  rw [keyLe_iff, keyLe_iff]
  omega

theorem keyLe_antisymm (p q : Nat × Nat × Access)
    (h1 : keyLe p q = true) (h2 : keyLe q p = true) : p = q := by
  rw [keyLe_iff] at h1 h2
  obtain ⟨p1, p2, p3⟩ := p
  obtain ⟨q1, q2, q3⟩ := q
  simp only at h1 h2 ⊢
  have e1 : p1 = q1 := by omega
  have e2 : p2 = q2 := by omega
  have e3 : p3.rank = q3.rank := by omega
  rw [e1, e2, Access.rank_inj p3 q3 e3]

theorem keyLe_trans (p q c : Nat × Nat × Access)
    (h1 : keyLe p q = true) (h2 : keyLe q c = true) : keyLe p c = true := by
  rw [keyLe_iff] at h1 h2 ⊢
  omega

theorem keyMax_comm (p q : Nat × Nat × Access) : keyMax p q = keyMax q p := by
  unfold keyMax
  by_cases h1 : keyLe p q = true <;> by_cases h2 : keyLe q p = true <;>
    simp [h1, h2]
  · exact (keyLe_antisymm p q h1 h2).symm
  · rcases keyLe_total p q with h | h <;> exact absurd h (by assumption)

theorem keyMax_assoc (p q c : Nat × Nat × Access) :
    keyMax (keyMax p q) c = keyMax p (keyMax q c) := by
  unfold keyMax
  by_cases h1 : keyLe p q = true <;> by_cases h2 : keyLe q c = true <;>
    by_cases h3 : keyLe p c = true <;> simp [h1, h2, h3]
  · exact absurd (keyLe_trans p q c h1 h2) h3
  · have hqp : keyLe q p = true := (keyLe_total p q).resolve_left h1
    have hcq : keyLe c q = true := (keyLe_total q c).resolve_left h2
    exact (keyLe_antisymm p c h3 (keyLe_trans c q p hcq hqp)).symm

theorem keyMax_left_comm (p q c : Nat × Nat × Access) :
    keyMax p (keyMax q c) = keyMax q (keyMax p c) := by
  rw [← keyMax_assoc, keyMax_comm p q, keyMax_assoc]

theorem keyInsOpt_left_comm (p q : Nat × Nat × Access)
    (o : Option (Nat × Nat × Access)) :
    keyInsOpt p (keyInsOpt q o) = keyInsOpt q (keyInsOpt p o) := by
  cases o with
  | none => simp [keyInsOpt, keyMax_comm]
  | some a => simp [keyInsOpt, keyMax_left_comm]

theorem all_congr_mem {α : Type} (l : List α) (p q : α → Bool)
    (h : ∀ a ∈ l, p a = q a) : l.all p = l.all q := by
  cases hp : l.all p with
  | true =>
    symm
    rw [List.all_eq_true] at hp ⊢
    exact fun a ha => (h a ha) ▸ hp a ha
  | false =>
    symm
    rw [List.all_eq_false] at hp ⊢
    obtain ⟨a, ha, hpa⟩ := hp
    refine ⟨a, ha, ?_⟩
    exact (h a ha) ▸ hpa

theorem all_swap {α : Type} (a b : α) (l : List α) (p : α → Bool) :
    (a :: b :: l).all p = (b :: a :: l).all p := by
  simp [List.all_cons, Bool.and_left_comm]

theorem effGrant_univ_swap (past : Nat → List Nat) (a b : Op) (l : List Op)
    (s x : Nat) (g : Op) :
    effGrant past (a :: b :: l) s x g = effGrant past (b :: a :: l) s x g := by
  unfold effGrant
  rw [all_swap]

theorem maxEffGrant_univ_swap (past : Nat → List Nat) (a b : Op) (l : List Op)
    (s x : Nat) (g : Op) :
    maxEffGrant past (a :: b :: l) s x g = maxEffGrant past (b :: a :: l) s x g := by
  unfold maxEffGrant
  rw [effGrant_univ_swap]
  refine congrArg _ ?_
  rw [all_congr_mem _ _
    (fun g' => !(effGrant past (b :: a :: l) s x g') || !((past g'.id).contains g.id))
    (fun g' _ => by rw [effGrant_univ_swap])]
  exact all_swap a b l _

theorem viewFold_univ_swap (past : Nat → List Nat) (a b : Op) (l : List Op)
    (s x : Nat) (L : List Op) :
    viewFold past (a :: b :: l) s x L = viewFold past (b :: a :: l) s x L := by
  induction L with
  | nil => rfl
  | cons g rest ih =>
    simp only [viewFold, maxEffGrant_univ_swap, ih]

theorem viewFold_list_swap (past : Nat → List Nat) (univ : List Op)
    (s x : Nat) (a b : Op) (L : List Op) :
    viewFold past univ s x (a :: b :: L) = viewFold past univ s x (b :: a :: L) := by
  by_cases ha : maxEffGrant past univ s x a = true <;>
    by_cases hb : maxEffGrant past univ s x b = true <;>
      simp only [viewFold, ha, hb, Bool.false_eq_true, if_true, if_false]
  exact keyInsOpt_left_comm _ _ _

theorem effGrant_past_congr (past₁ past₂ : Nat → List Nat) (univ : List Op)
    (s x : Nat) (g : Op) (h : past₁ g.id = past₂ g.id) :
    effGrant past₁ univ s x g = effGrant past₂ univ s x g := by
  unfold effGrant
  rw [h]

theorem maxEffGrant_past_congr (past₁ past₂ : Nat → List Nat) (univ : List Op)
    (s x : Nat) (g : Op) (huniv : ∀ o ∈ univ, past₁ o.id = past₂ o.id)
    (hg : past₁ g.id = past₂ g.id) :
    maxEffGrant past₁ univ s x g = maxEffGrant past₂ univ s x g := by
  unfold maxEffGrant
  rw [effGrant_past_congr past₁ past₂ univ s x g hg]
  refine congrArg _ ?_
  refine all_congr_mem _ _ _ (fun g' hg' => ?_)
  rw [effGrant_past_congr past₁ past₂ univ s x g' (huniv g' hg'), huniv g' hg']

theorem viewFold_past_congr (past₁ past₂ : Nat → List Nat) (univ : List Op)
    (s x : Nat) (huniv : ∀ o ∈ univ, past₁ o.id = past₂ o.id) :
    ∀ L : List Op, (∀ o ∈ L, past₁ o.id = past₂ o.id) →
      viewFold past₁ univ s x L = viewFold past₂ univ s x L := by
  intro L
  induction L with
  | nil => intro _; rfl
  | cons g rest ih =>
    intro hL
    have hg := hL g (List.mem_cons_self g rest)
    simp only [viewFold,
      maxEffGrant_past_congr past₁ past₂ univ s x g huniv hg,
      ih (fun o ho => hL o (List.mem_cons_of_mem _ ho))]

theorem resolvePast_cons (m : List (Nat × List Nat)) (d : Nat) (ds : List Nat) :
    resolvePast m (d :: ds) = d :: ((mapLookup d m).getD []) ++ resolvePast m ds :=
  rfl

theorem resolvePast_fresh (k : Nat) (v : List Nat) (m : List (Nat × List Nat))
    (deps : List Nat) (h : ∀ d ∈ deps, d ≠ k) :
    resolvePast ((k, v) :: m) deps = resolvePast m deps := by
  induction deps with
  | nil => rfl
  | cons d ds ih =>
    rw [resolvePast_cons, resolvePast_cons,
      ih (fun d' hd' => h d' (List.mem_cons_of_mem _ hd'))]
    have hd : d ≠ k := h d (List.mem_cons_self d ds)
    simp [mapLookup, hd]

theorem mem_resolvePast (m : List (Nat × List Nat)) (deps : List Nat) (i : Nat)
    (h : i ∈ resolvePast m deps) :
    i ∈ deps ∨ ∃ d ∈ deps, ∃ l, mapLookup d m = some l ∧ i ∈ l := by
  induction deps with
  | nil => exact absurd h (by simp [resolvePast])
  | cons d ds ih =>
    rw [resolvePast_cons] at h
    rcases List.mem_cons.mp h with h1 | h1
    · exact Or.inl (h1 ▸ List.mem_cons_self d ds)
    · rcases List.mem_append.mp h1 with h2 | h2
      · cases hl : mapLookup d m with
        | none => rw [hl] at h2; exact absurd h2 (by simp)
        | some l =>
          rw [hl] at h2
          exact Or.inr ⟨d, List.mem_cons_self d ds, l, hl, h2⟩
      · rcases ih h2 with h3 | ⟨d', hd', l, hl, hil⟩
        · exact Or.inl (List.mem_cons_of_mem _ h3)
        · exact Or.inr ⟨d', List.mem_cons_of_mem _ hd', l, hl, hil⟩

theorem pastMap_values (ops : List Op) :
    ∀ i l, mapLookup i (pastMap ops) = some l →
      ∀ j ∈ l, ∃ o ∈ ops, j ∈ o.deps := by
  induction ops with
  | nil => intro i l h; exact absurd h (by simp [pastMap, mapLookup])
  | cons op rest ih =>
    intro i l h j hj
    rw [pastMap] at h
    by_cases hi : i = op.id
    · rw [mapLookup, if_pos hi] at h
      injection h with h
      subst h
      rcases mem_resolvePast _ _ _ hj with h1 | ⟨d, hd, l', hl', hjl'⟩
      · exact ⟨op, List.mem_cons_self op rest, h1⟩
      · obtain ⟨o, ho, hjo⟩ := ih d l' hl' j hjl'
        exact ⟨o, List.mem_cons_of_mem _ ho, hjo⟩
    · rw [mapLookup, if_neg hi] at h
      obtain ⟨o, ho, hjo⟩ := ih i l h j hj
      exact ⟨o, List.mem_cons_of_mem _ ho, hjo⟩

theorem resolvePast_pastMap_avoids (ops : List Op) (deps : List Nat) (k : Nat)
    (hk : k ∉ deps) (hops : ∀ o ∈ ops, k ∉ o.deps) :
    k ∉ resolvePast (pastMap ops) deps := by
  intro h
  rcases mem_resolvePast _ _ _ h with h1 | ⟨d, _, l, hl, hkl⟩
  · exact hk h1
  · obtain ⟨o, ho, hko⟩ := pastMap_values ops d l hl k hkl
    exact hops o ho hko

theorem mapLookup_swap {K V : Type} [DecidableEq K] (k1 k2 : K) (v1 v2 : V)
    (m : List (K × V)) (h : k1 ≠ k2) (i : K) :
    mapLookup i ((k1, v1) :: (k2, v2) :: m) =
      mapLookup i ((k2, v2) :: (k1, v1) :: m) := by
  by_cases h1 : i = k1
  · subst h1
    simp [mapLookup, h]
  · by_cases h2 : i = k2 <;> simp [mapLookup, h1, h2]
    exact fun he => absurd he.symm h

theorem memberView_double_cons_swap (S : List Op) (A B : Op) (s x : Nat)
    (hABne : A.id ≠ B.id)
    (hAnotB : A.id ∉ B.deps) (hBnotA : B.id ∉ A.deps) :
    memberView (pastFn (pastMap (B :: A :: S))) (B :: A :: S) s x
      = memberView (pastFn (pastMap (A :: B :: S))) (A :: B :: S) s x := by
  have hrB : resolvePast ((A.id, resolvePast (pastMap S) A.deps) :: pastMap S) B.deps
      = resolvePast (pastMap S) B.deps :=
    resolvePast_fresh _ _ _ _ (fun d hd he => hAnotB (he ▸ hd))
  have hrA : resolvePast ((B.id, resolvePast (pastMap S) B.deps) :: pastMap S) A.deps
      = resolvePast (pastMap S) A.deps :=
    resolvePast_fresh _ _ _ _ (fun d hd he => hBnotA (he ▸ hd))
  have hpm1 : pastMap (B :: A :: S)
      = (B.id, resolvePast (pastMap S) B.deps) ::
          (A.id, resolvePast (pastMap S) A.deps) :: pastMap S := by
    simp [pastMap, hrB]
  have hpm2 : pastMap (A :: B :: S)
      = (A.id, resolvePast (pastMap S) A.deps) ::
          (B.id, resolvePast (pastMap S) B.deps) :: pastMap S := by
    simp [pastMap, hrA]
  have hfn : pastFn (pastMap (B :: A :: S)) = pastFn (pastMap (A :: B :: S)) := by
    funext i
    rw [hpm1, hpm2]
    unfold pastFn
    rw [mapLookup_swap B.id A.id _ _ (pastMap S) (fun he => hABne he.symm) i]
  unfold memberView
  rw [hfn, viewFold_univ_swap _ B A S s x, viewFold_list_swap]

theorem authorLevel_eq (y : AuthState) (op : Op) :
    authorLevel y op = memberView (pastFn (pastMap y.ops))
      (y.ops.filter (fun o => (resolvePast (pastMap y.ops) op.deps).contains o.id))
      op.space op.author :=
  rfl

theorem authorLevel_cons_fresh (y : AuthState) (A B : Op) (E : List (Nat × Nat))
    (hAfresh : A.id ∉ appliedIds y)
    (hBdeps : ∀ d ∈ B.deps, d ∈ appliedIds y)
    (hAnotref : ∀ o ∈ y.ops, A.id ∉ o.deps)
    (hAnotB : A.id ∉ B.deps) :
    authorLevel ({ ops := A :: y.ops, epochs := E } : AuthState) B
      = authorLevel y B := by
  have h1 : pastMap (A :: y.ops)
      = (A.id, resolvePast (pastMap y.ops) A.deps) :: pastMap y.ops := rfl
  have hdne : ∀ d ∈ B.deps, d ≠ A.id := fun d hd he => hAfresh (he ▸ hBdeps d hd)
  have h2 : resolvePast (pastMap (A :: y.ops)) B.deps
      = resolvePast (pastMap y.ops) B.deps := by
    rw [h1]
    exact resolvePast_fresh _ _ _ _ hdne
  have hAP : A.id ∉ resolvePast (pastMap y.ops) B.deps :=
    resolvePast_pastMap_avoids y.ops B.deps A.id hAnotB hAnotref
  have hAPb : ((resolvePast (pastMap y.ops) B.deps).contains A.id) = false := by
    simpa using hAP
  rw [authorLevel_eq, authorLevel_eq]
  show memberView (pastFn (pastMap (A :: y.ops)))
      ((A :: y.ops).filter
        (fun o => (resolvePast (pastMap (A :: y.ops)) B.deps).contains o.id))
      B.space B.author = _
  rw [h2]
  have h3 : (A :: y.ops).filter
      (fun o => (resolvePast (pastMap y.ops) B.deps).contains o.id)
      = y.ops.filter (fun o => (resolvePast (pastMap y.ops) B.deps).contains o.id) := by
    rw [List.filter_cons]
    simp [hAP]
  rw [h3]
  unfold memberView
  have hpt : ∀ o ∈ y.ops.filter
      (fun o => (resolvePast (pastMap y.ops) B.deps).contains o.id),
      pastFn (pastMap (A :: y.ops)) o.id = pastFn (pastMap y.ops) o.id := by
    intro o ho
    have hoy : o ∈ y.ops := (List.mem_filter.mp ho).1
    have hne : o.id ≠ A.id := fun he => hAfresh (he ▸ List.mem_map_of_mem _ hoy)
    rw [h1]
    unfold pastFn
    simp [mapLookup, hne]
  exact viewFold_past_congr _ _ _ _ _ hpt _ hpt

theorem gateOK_cons_fresh (y : AuthState) (A B : Op) (E : List (Nat × Nat))
    (hAfresh : A.id ∉ appliedIds y)
    (hBdeps : ∀ d ∈ B.deps, d ∈ appliedIds y)
    (hAnotref : ∀ o ∈ y.ops, A.id ∉ o.deps)
    (hAnotB : A.id ∉ B.deps) :
    gateOK ({ ops := A :: y.ops, epochs := E } : AuthState) B = gateOK y B := by
  unfold gateOK
  rw [authorLevel_cons_fresh y A B E hAfresh hBdeps hAnotref hAnotB]

theorem applyOp_accept_ops (y : AuthState) (op : Op)
    (hmem : op.id ∉ appliedIds y) (hg : gateOK y op = true) :
    (applyOp y op).1.ops = op :: y.ops := by
  simp [applyOp, hmem, hg]

theorem applyOp_reject (y : AuthState) (op : Op)
    (hmem : op.id ∉ appliedIds y) (hg : gateOK y op = false) :
    (applyOp y op).1 = y := by
  simp [applyOp, hmem, hg]

/-- C2: convergence — applying two concurrent operations (fresh ids, all
dependencies already applied, state dependency-closed, so neither is in the
other's causal past) in either order yields the same membership/access view
for every space and actor. -/
theorem applyOp_comm_view (y : AuthState) (A B : Op)
    (hAfresh : A.id ∉ appliedIds y) (hBfresh : B.id ∉ appliedIds y)
    (hABne : A.id ≠ B.id)
    (hAdeps : ∀ d ∈ A.deps, d ∈ appliedIds y)
    (hBdeps : ∀ d ∈ B.deps, d ∈ appliedIds y)
    (hclosed : ∀ o ∈ y.ops, ∀ d ∈ o.deps, d ∈ appliedIds y) :
    ∀ s x, spaceView (applyOp (applyOp y A).1 B).1 s x
      = spaceView (applyOp (applyOp y B).1 A).1 s x := by
  intro s x
  have hAnotB : A.id ∉ B.deps := fun h => hAfresh (hBdeps _ h)
  have hBnotA : B.id ∉ A.deps := fun h => hBfresh (hAdeps _ h)
  have hAnotref : ∀ o ∈ y.ops, A.id ∉ o.deps :=
    fun o ho h => hAfresh (hclosed o ho _ h)
  have hBnotref : ∀ o ∈ y.ops, B.id ∉ o.deps :=
    fun o ho h => hBfresh (hclosed o ho _ h)
  have hA1ops : gateOK y A = true → (applyOp y A).1.ops = A :: y.ops :=
    fun hg => applyOp_accept_ops y A hAfresh hg
  have hB1ops : gateOK y B = true → (applyOp y B).1.ops = B :: y.ops :=
    fun hg => applyOp_accept_ops y B hBfresh hg
  cases hgA : gateOK y A <;> cases hgB : gateOK y B
  · -- both rejected: both orders leave the state unchanged
    rw [applyOp_reject y A hAfresh hgA, applyOp_reject y B hBfresh hgB,
      applyOp_reject y A hAfresh hgA]
  · -- A rejected, B accepted
    have hBo := hB1ops hgB
    have hB1eq : (applyOp y B).1 = ⟨B :: y.ops, (applyOp y B).1.epochs⟩ := by
      rw [← hBo]
    have hAmem1 : A.id ∉ appliedIds (applyOp y B).1 := by
      unfold appliedIds
      rw [hBo, List.map_cons]
      intro hmem
      rcases List.mem_cons.mp hmem with h | h
      · exact hABne h
      · exact hAfresh h
    have hgA1 : gateOK (applyOp y B).1 A = false := by
      rw [hB1eq, gateOK_cons_fresh y B A _ hBfresh hAdeps hBnotref hBnotA]
      exact hgA
    rw [applyOp_reject y A hAfresh hgA,
      applyOp_reject (applyOp y B).1 A hAmem1 hgA1]
  · -- A accepted, B rejected
    have hAo := hA1ops hgA
    have hA1eq : (applyOp y A).1 = ⟨A :: y.ops, (applyOp y A).1.epochs⟩ := by
      rw [← hAo]
    have hBmem1 : B.id ∉ appliedIds (applyOp y A).1 := by
      unfold appliedIds
      rw [hAo, List.map_cons]
      intro hmem
      rcases List.mem_cons.mp hmem with h | h
      · exact hABne h.symm
      · exact hBfresh h
    have hgB1 : gateOK (applyOp y A).1 B = false := by
      rw [hA1eq, gateOK_cons_fresh y A B _ hAfresh hBdeps hAnotref hAnotB]
      exact hgB
    rw [applyOp_reject y B hBfresh hgB,
      applyOp_reject (applyOp y A).1 B hBmem1 hgB1]
  · -- both accepted
    have hAo := hA1ops hgA
    have hBo := hB1ops hgB
    have hA1eq : (applyOp y A).1 = ⟨A :: y.ops, (applyOp y A).1.epochs⟩ := by
      rw [← hAo]
    have hB1eq : (applyOp y B).1 = ⟨B :: y.ops, (applyOp y B).1.epochs⟩ := by
      rw [← hBo]
    have hBmem1 : B.id ∉ appliedIds (applyOp y A).1 := by
      unfold appliedIds
      rw [hAo, List.map_cons]
      intro hmem
      rcases List.mem_cons.mp hmem with h | h
      · exact hABne h.symm
      · exact hBfresh h
    have hAmem1 : A.id ∉ appliedIds (applyOp y B).1 := by
      unfold appliedIds
      rw [hBo, List.map_cons]
      intro hmem
      rcases List.mem_cons.mp hmem with h | h
      · exact hABne h
      · exact hAfresh h
    have hgB1 : gateOK (applyOp y A).1 B = true := by
      rw [hA1eq, gateOK_cons_fresh y A B _ hAfresh hBdeps hAnotref hAnotB]
      exact hgB
    have hgA1 : gateOK (applyOp y B).1 A = true := by
      rw [hB1eq, gateOK_cons_fresh y B A _ hBfresh hAdeps hBnotref hBnotA]
      exact hgA
    have hABo : (applyOp (applyOp y A).1 B).1.ops = B :: A :: y.ops := by
      rw [applyOp_accept_ops (applyOp y A).1 B hBmem1 hgB1, hAo]
    have hBAo : (applyOp (applyOp y B).1 A).1.ops = A :: B :: y.ops := by
      rw [applyOp_accept_ops (applyOp y B).1 A hAmem1 hgA1, hBo]
    unfold spaceView
    rw [hABo, hBAo]
    exact memberView_double_cons_swap y.ops A B s x hABne hAnotB hBnotA

def ySc2 : AuthState :=
  applyAll yEmpty [sc1Create, sc1AddBob, sc1AddCarol, sc1AddDave]

theorem applyOp_comm_view_witness :
    spaceView (applyOp (applyOp ySc2 sc1RemBob).1 sc1ChgBob).1 0 2
      = spaceView (applyOp (applyOp ySc2 sc1ChgBob).1 sc1RemBob).1 0 2 :=
  applyOp_comm_view ySc2 sc1RemBob sc1ChgBob (by decide) (by decide) (by decide)
    (by decide) (by decide) (by decide) 0 2
